import Mathlib

/-!
Shallow embedding of `src/kanidm_proto/src/v1.rs` (kanidm protocol v1 types)
together with the filter-canonicalization and authentication-negotiation
behaviour described by the specification, and proofs of the spec claims.
-/

namespace KanidmProto

/-! ## Error taxonomy (from `v1.rs` lines 9-67) -/

/-- `enum SchemaError` from `v1.rs`. -/
inductive SchemaError where
  | NotImplemented
  | InvalidClass
  | MissingMustAttribute (a : String)
  | InvalidAttribute
  | InvalidAttributeSyntax
  | EmptyFilter
  | Corrupted
deriving DecidableEq, Repr

/-- `enum ConsistencyError` from `v1.rs`.  Rust `&'static str` payloads are
embedded as `String`, `u64` as `Nat` (no arithmetic is performed on them). -/
inductive ConsistencyError where
  | Unknown
  | SchemaClassMissingAttribute (class_ attr : String)
  | QueryServerSearchFailure
  | EntryUuidCorrupt (id : Nat)
  | UuidIndexCorrupt (s : String)
  | UuidNotUnique (s : String)
  | RefintNotUpheld (id : Nat)
  | MemberOfInvalid (id : Nat)
  | InvalidAttributeType (s : String)
  | DuplicateUniqueAttribute (s : String)
deriving DecidableEq, Repr

instance : DecidableEq (Except ConsistencyError Unit) := fun a b =>
  match a, b with
  | .ok (), .ok () => isTrue rfl
  | .error e, .error e' =>
    if h : e = e' then isTrue (by rw [h]) else isFalse (fun hh => h (by cases hh; rfl))
  | .ok _, .error _ => isFalse (fun h => Except.noConfusion h)
  | .error _, .ok _ => isFalse (fun h => Except.noConfusion h)

/-- `enum OperationError` from `v1.rs`.  The `ConsistencyError` variant carries
a `Vec<Result<(), ConsistencyError>>`; Rust `Result<(), E>` is embedded as
`Except E Unit`. -/
inductive OperationError where
  | EmptyRequest
  | Backend
  | NoMatchingEntries
  | CorruptedEntry (id : Nat)
  | ConsistencyError (results : List (Except ConsistencyError Unit))
  | SchemaViolation (e : SchemaError)
  | Plugin
  | FilterGeneration
  | FilterUUIDResolution
  | InvalidAttributeName (s : String)
  | InvalidAttribute (s : String)
  | InvalidDBState
  | InvalidEntryID
  | InvalidRequestState
  | InvalidState
  | InvalidEntryState
  | InvalidUuid
  | InvalidACPState (s : String)
  | InvalidSchemaState (s : String)
  | InvalidAccountState (s : String)
  | BackendEngine
  | SQLiteError
  | FsError
  | SerdeJsonError
  | SerdeCborError
  | AccessDenied
  | NotAuthenticated
  | InvalidAuthState (s : String)
  | InvalidSessionState
  | SystemProtectedObject
deriving DecidableEq, Repr

/-! ## Higher level types (from `v1.rs` lines 75-129) -/

/-- `struct Group` from `v1.rs`. -/
structure Group where
  name : String
  uuid : String
deriving DecidableEq, Repr

/-- `struct Claim` from `v1.rs`. -/
structure Claim where
  name : String
  uuid : String
deriving DecidableEq, Repr

/-- `struct Application` from `v1.rs`. -/
structure Application where
  name : String
  uuid : String
deriving DecidableEq, Repr

/-- `struct UserAuthToken` from `v1.rs`. -/
structure UserAuthToken where
  name : String
  displayname : String
  uuid : String
  application : Option Application
  groups : List Group
  claims : List Claim
deriving DecidableEq, Repr

/-! ## Filter (from `v1.rs` lines 146-157) -/

/-- `enum Filter` from `v1.rs`: the recursive query AST.  Constructor order
matches the Rust declaration order, which fixes the derived `Ord`'s
discriminant ranking. -/
inductive Filter where
  | Eq (attr value : String)
  | Sub (attr value : String)
  | Pres (attr : String)
  | Or (children : List Filter)
  | And (children : List Filter)
  | AndNot (child : Filter)
  | SelfUUID
deriving Repr

/-- Discriminant rank of a `Filter` constructor, in Rust declaration order;
Rust's derived `Ord` compares discriminants first. -/
def Filter.rank : Filter → Nat
  | .Eq _ _ => 0
  | .Sub _ _ => 1
  | .Pres _ => 2
  | .Or _ => 3
  | .And _ => 4
  | .AndNot _ => 5
  | .SelfUUID => 6

mutual

/-- Three-way comparison on `Filter`, mirroring Rust's
`#[derive(Ord, PartialOrd)]` on `enum Filter`: discriminant order first, then
the fields lexicographically, `Vec<Filter>` compared lexicographically. -/
def Filter.cmp : Filter → Filter → Ordering
  | .Eq a v, .Eq a' v' => (compare a a').then (compare v v')
  | .Sub a v, .Sub a' v' => (compare a a').then (compare v v')
  | .Pres a, .Pres a' => compare a a'
  | .Or cs, .Or ds => Filter.cmpList cs ds
  | .And cs, .And ds => Filter.cmpList cs ds
  | .AndNot f, .AndNot g => Filter.cmp f g
  | .SelfUUID, .SelfUUID => .eq
  | f, g => compare f.rank g.rank

/-- Lexicographic comparison of filter sequences, mirroring the derived `Ord`
on `Vec<Filter>` (a strict prefix is smaller). -/
def Filter.cmpList : List Filter → List Filter → Ordering
  | [], [] => .eq
  | [], _ :: _ => .lt
  | _ :: _, [] => .gt
  | x :: xs, y :: ys => (Filter.cmp x y).then (Filter.cmpList xs ys)

end

mutual

theorem Filter.cmp_eq_iff (f g : Filter) : Filter.cmp f g = Ordering.eq ↔ f = g := by
  cases f <;> cases g <;>
    simp only [Filter.cmp, Filter.rank, Ordering.then_eq_eq, compare_eq_iff_eq,
      Filter.Eq.injEq, Filter.Sub.injEq, Filter.Pres.injEq, Filter.Or.injEq,
      Filter.And.injEq, Filter.AndNot.injEq, reduceCtorEq, iff_false, iff_true] <;>
    first
      | rfl
      | decide
      | exact Filter.cmpList_eq_iff ..
      | exact Filter.cmp_eq_iff ..

theorem Filter.cmpList_eq_iff (xs ys : List Filter) :
    Filter.cmpList xs ys = Ordering.eq ↔ xs = ys := by
  match xs, ys with
  | [], [] => simp [Filter.cmpList]
  | [], _ :: _ => simp [Filter.cmpList]
  | _ :: _, [] => simp [Filter.cmpList]
  | x :: xs, y :: ys =>
    simp [Filter.cmpList, Ordering.then_eq_eq, Filter.cmp_eq_iff x y,
      Filter.cmpList_eq_iff xs ys]

end

/-- Structural (derived `PartialEq`) equality of filters is decidable; the
decision procedure is the derived comparator's `eq` test. -/
instance : DecidableEq Filter := fun f g =>
  decidable_of_iff (Filter.cmp f g = Ordering.eq) (Filter.cmp_eq_iff f g)

theorem compare_swap_eq {α : Type} [LinearOrder α] (a b : α) :
    (compare a b).swap = compare b a :=
  Batteries.OrientedCmp.symm a b

mutual

theorem Filter.cmp_swap (f g : Filter) : (Filter.cmp f g).swap = Filter.cmp g f := by
  cases f <;> cases g <;>
    simp only [Filter.cmp, Filter.rank, Ordering.swap_then, compare_swap_eq] <;>
    first
      | rfl
      | exact Filter.cmpList_swap ..
      | exact Filter.cmp_swap ..

theorem Filter.cmpList_swap (xs ys : List Filter) :
    (Filter.cmpList xs ys).swap = Filter.cmpList ys xs := by
  match xs, ys with
  | [], [] => rfl
  | [], _ :: _ => rfl
  | _ :: _, [] => rfl
  | x :: xs, y :: ys =>
    simp [Filter.cmpList, Ordering.swap_then, Filter.cmp_swap x y,
      Filter.cmpList_swap xs ys]

end

/-- Transitivity of the strict part of a lexicographic pair of `compare`s. -/
theorem then_compare_lt_trans {α β : Type} [LinearOrder α] [LinearOrder β]
    {a b c : α} {x y z : β}
    (h1 : (compare a b).then (compare x y) = Ordering.lt)
    (h2 : (compare b c).then (compare y z) = Ordering.lt) :
    (compare a c).then (compare x z) = Ordering.lt := by
  simp only [Ordering.then_eq_lt, compare_lt_iff_lt, compare_eq_iff_eq] at h1 h2 ⊢
  rcases h1 with h1 | ⟨rfl, h1⟩ <;> rcases h2 with h2 | ⟨rfl, h2⟩
  · exact Or.inl (lt_trans h1 h2)
  · exact Or.inl h1
  · exact Or.inl h2
  · exact Or.inr ⟨rfl, lt_trans h1 h2⟩

mutual

theorem Filter.cmp_lt_trans {f g k : Filter} (h1 : Filter.cmp f g = Ordering.lt)
    (h2 : Filter.cmp g k = Ordering.lt) : Filter.cmp f k = Ordering.lt := by
  cases f <;> cases g <;> cases k <;>
    simp only [Filter.cmp, Filter.rank] at h1 h2 ⊢ <;>
    first
      | rfl
      | exact h1
      | exact h2
      | exact absurd h1 (by decide)
      | exact absurd h2 (by decide)
      | exact then_compare_lt_trans h1 h2
      | exact Batteries.TransCmp.lt_trans h1 h2
      | exact Filter.cmp_lt_trans h1 h2
      | exact Filter.cmpList_lt_trans h1 h2

theorem Filter.cmpList_lt_trans {xs ys zs : List Filter}
    (h1 : Filter.cmpList xs ys = Ordering.lt)
    (h2 : Filter.cmpList ys zs = Ordering.lt) :
    Filter.cmpList xs zs = Ordering.lt := by
  match xs, ys, zs with
  | [], [], _ => exact absurd h1 (by simp [Filter.cmpList])
  | [], _ :: _, [] => exact absurd h2 (by simp [Filter.cmpList])
  | [], _ :: _, _ :: _ => simp [Filter.cmpList]
  | _ :: _, [], _ => exact absurd h1 (by simp [Filter.cmpList])
  | _ :: _, _ :: _, [] => exact absurd h2 (by simp [Filter.cmpList])
  | x :: xs, y :: ys, z :: zs =>
    simp only [Filter.cmpList, Ordering.then_eq_lt, Filter.cmp_eq_iff] at h1 h2 ⊢
    rcases h1 with h1 | ⟨rfl, h1⟩ <;> rcases h2 with h2 | ⟨rfl, h2⟩
    · exact Or.inl (Filter.cmp_lt_trans h1 h2)
    · exact Or.inl h1
    · exact Or.inl h2
    · exact Or.inr ⟨rfl, Filter.cmpList_lt_trans h1 h2⟩

end

/-- The total order `f ≤ g` induced by the derived comparator (`Ord::le`),
used by the canonicalization algorithm to sort child sequences. -/
def Filter.fle (f g : Filter) : Prop := Filter.cmp f g ≠ Ordering.gt

instance : DecidableRel Filter.fle := fun f g => by
  unfold Filter.fle; infer_instance

theorem Filter.fle_total (f g : Filter) : Filter.fle f g ∨ Filter.fle g f := by
  unfold Filter.fle
  cases h : Filter.cmp f g with
  | lt => exact Or.inl (by simp [h])
  | eq => exact Or.inl (by simp [h])
  | gt =>
    refine Or.inr ?_
    have := Filter.cmp_swap f g
    rw [h] at this
    simp [← this, Ordering.swap]

theorem Filter.fle_trans {f g k : Filter} (h1 : Filter.fle f g) (h2 : Filter.fle g k) :
    Filter.fle f k := by
  unfold Filter.fle at h1 h2 ⊢
  cases hfg : Filter.cmp f g with
  | gt => exact absurd hfg h1
  | eq => rwa [(Filter.cmp_eq_iff f g).1 hfg]
  | lt =>
    cases hgk : Filter.cmp g k with
    | gt => exact absurd hgk h2
    | eq => rw [← (Filter.cmp_eq_iff g k).1 hgk]; simp [hfg]
    | lt => simp [Filter.cmp_lt_trans hfg hgk]

theorem Filter.fle_antisymm {f g : Filter} (h1 : Filter.fle f g) (h2 : Filter.fle g f) :
    f = g := by
  unfold Filter.fle at h1 h2
  cases hfg : Filter.cmp f g with
  | gt => exact absurd hfg h1
  | eq => exact (Filter.cmp_eq_iff f g).1 hfg
  | lt =>
    exfalso
    have := Filter.cmp_swap f g
    rw [hfg] at this
    exact h2 this.symm

instance : IsTotal Filter Filter.fle := ⟨Filter.fle_total⟩

instance : IsTrans Filter Filter.fle := ⟨fun _ _ _ => Filter.fle_trans⟩

instance : IsAntisymm Filter Filter.fle := ⟨fun _ _ => Filter.fle_antisymm⟩

/-! ## Filter canonicalization (spec §4.1; not part of this source fragment) -/

/-- Whether the root node of a filter is an `Or`. -/
def Filter.isOr : Filter → Bool
  | .Or _ => true
  | _ => false

/-- Whether the root node of a filter is an `And`. -/
def Filter.isAnd : Filter → Bool
  | .And _ => true
  | _ => false

/-- One step of `Or`-associativity flattening: a direct `Or` child contributes
its own children, any other child contributes itself. -/
def Filter.expandOr : Filter → List Filter
  | .Or cs => cs
  | f => [f]

/-- One step of `And`-associativity flattening. -/
def Filter.expandAnd : Filter → List Filter
  | .And cs => cs
  | f => [f]

/-- Modelled from the spec: canonicalization step 2 for `Or` nodes — flatten
nested `Or`/`Or` of the same kind into a single child sequence. -/
def Filter.flattenOr : List Filter → List Filter
  | [] => []
  | f :: rest => Filter.expandOr f ++ Filter.flattenOr rest

/-- Modelled from the spec: canonicalization step 2 for `And` nodes. -/
def Filter.flattenAnd : List Filter → List Filter
  | [] => []
  | f :: rest => Filter.expandAnd f ++ Filter.flattenAnd rest

/-- Modelled from the spec: canonicalization step 3 — sort a child sequence
under the total order of the derived comparator. -/
def Filter.sortChildren (cs : List Filter) : List Filter :=
  List.insertionSort Filter.fle cs

mutual

/-- Modelled from the spec: the filter canonicalization algorithm of §4.1
(absent from this source fragment, which only declares the `Filter` type):
post-order canonicalize children, flatten nested same-kind `And`/`And` and
`Or`/`Or`, sort each child sequence under the total order, then remove
exact-duplicate children; leaves and `AndNot` are canonicalized in place. -/
def Filter.canon : Filter → Filter
  | .Eq a v => .Eq a v
  | .Sub a v => .Sub a v
  | .Pres a => .Pres a
  | .Or cs => .Or (Filter.sortChildren (Filter.flattenOr (Filter.canonList cs))).dedup
  | .And cs => .And (Filter.sortChildren (Filter.flattenAnd (Filter.canonList cs))).dedup
  | .AndNot f => .AndNot (Filter.canon f)
  | .SelfUUID => .SelfUUID

/-- Pointwise canonicalization of a child sequence (spec step 1). -/
def Filter.canonList : List Filter → List Filter
  | [] => []
  | f :: fs => Filter.canon f :: Filter.canonList fs

end

theorem Filter.canonList_eq_map (cs : List Filter) :
    Filter.canonList cs = cs.map Filter.canon := by
  induction cs with
  | nil => rfl
  | cons f fs ih => simp [Filter.canonList, ih]

theorem Filter.mem_flattenOr {c : Filter} {L : List Filter} (h : c ∈ Filter.flattenOr L) :
    ∃ g ∈ L, c ∈ Filter.expandOr g := by
  induction L with
  | nil => simp [Filter.flattenOr] at h
  | cons f rest ih =>
    simp only [Filter.flattenOr, List.mem_append] at h
    rcases h with h | h
    · exact ⟨f, List.mem_cons_self f rest, h⟩
    · obtain ⟨g, hg, hc⟩ := ih h
      exact ⟨g, List.mem_cons_of_mem f hg, hc⟩

theorem Filter.mem_flattenAnd {c : Filter} {L : List Filter} (h : c ∈ Filter.flattenAnd L) :
    ∃ g ∈ L, c ∈ Filter.expandAnd g := by
  induction L with
  | nil => simp [Filter.flattenAnd] at h
  | cons f rest ih =>
    simp only [Filter.flattenAnd, List.mem_append] at h
    rcases h with h | h
    · exact ⟨f, List.mem_cons_self f rest, h⟩
    · obtain ⟨g, hg, hc⟩ := ih h
      exact ⟨g, List.mem_cons_of_mem f hg, hc⟩

theorem Filter.flattenOr_of_no_or {L : List Filter} (h : ∀ c ∈ L, Filter.isOr c = false) :
    Filter.flattenOr L = L := by
  induction L with
  | nil => rfl
  | cons f rest ih =>
    have hf : Filter.expandOr f = [f] := by
      cases f <;> simp_all [Filter.isOr, Filter.expandOr]
    simp only [Filter.flattenOr, hf, List.singleton_append, List.cons.injEq, true_and]
    exact ih fun c hc => h c (List.mem_cons_of_mem f hc)

theorem Filter.flattenAnd_of_no_and {L : List Filter} (h : ∀ c ∈ L, Filter.isAnd c = false) :
    Filter.flattenAnd L = L := by
  induction L with
  | nil => rfl
  | cons f rest ih =>
    have hf : Filter.expandAnd f = [f] := by
      cases f <;> simp_all [Filter.isAnd, Filter.expandAnd]
    simp only [Filter.flattenAnd, hf, List.singleton_append, List.cons.injEq, true_and]
    exact ih fun c hc => h c (List.mem_cons_of_mem f hc)

theorem Filter.flattenOr_perm {L L' : List Filter} (h : L.Perm L') :
    (Filter.flattenOr L).Perm (Filter.flattenOr L') := by
  induction h with
  | nil => exact List.Perm.refl _
  | cons x _ ih => exact ih.append_left (Filter.expandOr x)
  | swap x y l =>
    simp only [Filter.flattenOr]
    rw [← List.append_assoc, ← List.append_assoc]
    exact (List.perm_append_comm.append_right _)
  | trans _ _ ih1 ih2 => exact ih1.trans ih2

theorem Filter.flattenAnd_perm {L L' : List Filter} (h : L.Perm L') :
    (Filter.flattenAnd L).Perm (Filter.flattenAnd L') := by
  induction h with
  | nil => exact List.Perm.refl _
  | cons x _ ih => exact ih.append_left (Filter.expandAnd x)
  | swap x y l =>
    simp only [Filter.flattenAnd]
    rw [← List.append_assoc, ← List.append_assoc]
    exact (List.perm_append_comm.append_right _)
  | trans _ _ ih1 ih2 => exact ih1.trans ih2

/-- The sorted output of `sortChildren`. -/
theorem Filter.sortChildren_sorted (cs : List Filter) :
    (Filter.sortChildren cs).Sorted Filter.fle :=
  List.sorted_insertionSort Filter.fle cs

theorem Filter.sortChildren_perm (cs : List Filter) :
    (Filter.sortChildren cs).Perm cs :=
  List.perm_insertionSort Filter.fle cs

/-- Two child sequences that are permutations of each other sort identically. -/
theorem Filter.sortChildren_eq_of_perm {cs ds : List Filter} (h : cs.Perm ds) :
    Filter.sortChildren cs = Filter.sortChildren ds :=
  List.eq_of_perm_of_sorted
    ((Filter.sortChildren_perm cs).trans (h.trans (Filter.sortChildren_perm ds).symm))
    (Filter.sortChildren_sorted cs) (Filter.sortChildren_sorted ds)

/-- The canonical-form invariant established by `Filter.canon`: inside an `Or`
(resp. `And`) node the child sequence contains no nested same-kind node, is
sorted under the total order and has no exact duplicates, and all children are
themselves canonical. -/
inductive Canonical : Filter → Prop where
  | eqF (a v : String) : Canonical (.Eq a v)
  | subF (a v : String) : Canonical (.Sub a v)
  | presF (a : String) : Canonical (.Pres a)
  | selfF : Canonical .SelfUUID
  | andNotF {f : Filter} : Canonical f → Canonical (.AndNot f)
  | orF {cs : List Filter} (hc : ∀ c ∈ cs, Canonical c)
      (hno : ∀ c ∈ cs, Filter.isOr c = false)
      (hs : List.Sorted Filter.fle cs) (hn : cs.Nodup) : Canonical (.Or cs)
  | andF {cs : List Filter} (hc : ∀ c ∈ cs, Canonical c)
      (hno : ∀ c ∈ cs, Filter.isAnd c = false)
      (hs : List.Sorted Filter.fle cs) (hn : cs.Nodup) : Canonical (.And cs)

/-- The output of `Filter.canon` always satisfies the canonical-form
invariant. -/
theorem Filter.canon_canonical : (f : Filter) → Canonical f.canon
  | .Eq a v => Canonical.eqF a v
  | .Sub a v => Canonical.subF a v
  | .Pres a => Canonical.presF a
  | .SelfUUID => Canonical.selfF
  | .AndNot f => Canonical.andNotF (Filter.canon_canonical f)
  | .Or cs => by
    have key : ∀ c ∈ (Filter.sortChildren (Filter.flattenOr (Filter.canonList cs))).dedup,
        Canonical c ∧ Filter.isOr c = false := by
      intro c hc
      have hc2 : c ∈ Filter.flattenOr (Filter.canonList cs) :=
        (Filter.sortChildren_perm _).subset ((List.dedup_sublist _).subset hc)
      obtain ⟨g, hg, hcg⟩ := Filter.mem_flattenOr hc2
      rw [Filter.canonList_eq_map] at hg
      obtain ⟨b, hb, rfl⟩ := List.mem_map.1 hg
      have hcanb : Canonical b.canon := Filter.canon_canonical b
      cases hcb : Filter.canon b with
      | Or ds =>
        rw [hcb] at hcanb hcg
        simp only [Filter.expandOr] at hcg
        cases hcanb with
        | orF h1 h2 _ _ => exact ⟨h1 c hcg, h2 c hcg⟩
      | _ =>
        rw [hcb] at hcanb hcg
        simp only [Filter.expandOr, List.mem_singleton] at hcg
        subst hcg
        exact ⟨hcanb, by simp [Filter.isOr]⟩
    refine Canonical.orF (fun c hc => (key c hc).1) (fun c hc => (key c hc).2)
      ?_ (List.nodup_dedup _)
    exact (Filter.sortChildren_sorted _).sublist (List.dedup_sublist _)
  | .And cs => by
    have key : ∀ c ∈ (Filter.sortChildren (Filter.flattenAnd (Filter.canonList cs))).dedup,
        Canonical c ∧ Filter.isAnd c = false := by
      intro c hc
      have hc2 : c ∈ Filter.flattenAnd (Filter.canonList cs) :=
        (Filter.sortChildren_perm _).subset ((List.dedup_sublist _).subset hc)
      obtain ⟨g, hg, hcg⟩ := Filter.mem_flattenAnd hc2
      rw [Filter.canonList_eq_map] at hg
      obtain ⟨b, hb, rfl⟩ := List.mem_map.1 hg
      have hcanb : Canonical b.canon := Filter.canon_canonical b
      cases hcb : Filter.canon b with
      | And ds =>
        rw [hcb] at hcanb hcg
        simp only [Filter.expandAnd] at hcg
        cases hcanb with
        | andF h1 h2 _ _ => exact ⟨h1 c hcg, h2 c hcg⟩
      | _ =>
        rw [hcb] at hcanb hcg
        simp only [Filter.expandAnd, List.mem_singleton] at hcg
        subst hcg
        exact ⟨hcanb, by simp [Filter.isAnd]⟩
    refine Canonical.andF (fun c hc => (key c hc).1) (fun c hc => (key c hc).2)
      ?_ (List.nodup_dedup _)
    exact (Filter.sortChildren_sorted _).sublist (List.dedup_sublist _)
termination_by f => sizeOf f
decreasing_by
  all_goals simp_wf
  all_goals (have hlt := List.sizeOf_lt_of_mem hb; omega)

/-- Filters already in canonical form are fixed points of `Filter.canon`. -/
theorem Filter.canon_of_canonical {f : Filter} (h : Canonical f) : f.canon = f := by
  induction h with
  | eqF a v => rfl
  | subF a v => rfl
  | presF a => rfl
  | selfF => rfl
  | andNotF _ ih => simp [Filter.canon, ih]
  | orF hc hno hs hn ih =>
    have h1 : Filter.canonList _ = _ := (Filter.canonList_eq_map _).trans
      ((List.map_congr_left ih).trans (List.map_id _))
    simp only [Filter.canon, h1, Filter.flattenOr_of_no_or hno]
    rw [Filter.sortChildren, hs.insertionSort_eq, hn.dedup]
  | andF hc hno hs hn ih =>
    have h1 : Filter.canonList _ = _ := (Filter.canonList_eq_map _).trans
      ((List.map_congr_left ih).trans (List.map_id _))
    simp only [Filter.canon, h1, Filter.flattenAnd_of_no_and hno]
    rw [Filter.sortChildren, hs.insertionSort_eq, hn.dedup]

mutual

/-- Two filters that differ only in the order of children inside `Or`/`And`
nodes, recursively: the claimed equivalence of C1.  An `Or`/`And` matches an
`Or`/`And` whose child sequence is, up to recursive `PermEq` of the elements,
a permutation of its own. -/
def PermEq : Filter → Filter → Prop
  | .Eq a v, .Eq a' v' => a = a' ∧ v = v'
  | .Sub a v, .Sub a' v' => a = a' ∧ v = v'
  | .Pres a, .Pres a' => a = a'
  | .Or cs, .Or ds => ∃ ds', PermEqList cs ds' ∧ ds'.Perm ds
  | .And cs, .And ds => ∃ ds', PermEqList cs ds' ∧ ds'.Perm ds
  | .AndNot f, .AndNot g => PermEq f g
  | .SelfUUID, .SelfUUID => True
  | _, _ => False

/-- Pointwise `PermEq` of two child sequences of equal length. -/
def PermEqList : List Filter → List Filter → Prop
  | [], [] => True
  | x :: xs, y :: ys => PermEq x y ∧ PermEqList xs ys
  | _, _ => False

end

theorem Filter.canon_or_congr {cs ds ds' : List Filter}
    (e1 : Filter.canonList cs = Filter.canonList ds') (h2 : ds'.Perm ds) :
    Filter.canon (.Or cs) = Filter.canon (.Or ds) := by
  have e2 : (Filter.canonList ds').Perm (Filter.canonList ds) := by
    rw [Filter.canonList_eq_map, Filter.canonList_eq_map]
    exact h2.map _
  rw [← e1] at e2
  have e3 := Filter.sortChildren_eq_of_perm (Filter.flattenOr_perm e2)
  simp only [Filter.canon, e3]

theorem Filter.canon_and_congr {cs ds ds' : List Filter}
    (e1 : Filter.canonList cs = Filter.canonList ds') (h2 : ds'.Perm ds) :
    Filter.canon (.And cs) = Filter.canon (.And ds) := by
  have e2 : (Filter.canonList ds').Perm (Filter.canonList ds) := by
    rw [Filter.canonList_eq_map, Filter.canonList_eq_map]
    exact h2.map _
  rw [← e1] at e2
  have e3 := Filter.sortChildren_eq_of_perm (Filter.flattenAnd_perm e2)
  simp only [Filter.canon, e3]

mutual

theorem Filter.canon_eq_of_permEq (f g : Filter) (h : PermEq f g) :
    Filter.canon f = Filter.canon g := by
  cases f <;> cases g <;> first
    | rfl
    | (obtain ⟨rfl, rfl⟩ : _ ∧ _ := h
       rfl)
    | (obtain rfl : _ = _ := h
       rfl)
    | (simp only [Filter.canon]
       exact congrArg Filter.AndNot (Filter.canon_eq_of_permEq _ _ h))
    | (obtain ⟨ds', h1, h2⟩ : ∃ x, _ ∧ _ := h
       first
         | exact Filter.canon_or_congr (Filter.canonList_eq_of_permEqList _ _ h1) h2
         | exact Filter.canon_and_congr (Filter.canonList_eq_of_permEqList _ _ h1) h2)
    | exact absurd h (by simp [PermEq])

theorem Filter.canonList_eq_of_permEqList (xs ys : List Filter) (h : PermEqList xs ys) :
    Filter.canonList xs = Filter.canonList ys := by
  match xs, ys with
  | [], [] => rfl
  | [], _ :: _ => exact absurd h (by simp [PermEqList])
  | _ :: _, [] => exact absurd h (by simp [PermEqList])
  | x :: xs, y :: ys =>
    have hp : PermEq x y ∧ PermEqList xs ys := h
    simp only [Filter.canonList]
    rw [Filter.canon_eq_of_permEq x y hp.1, Filter.canonList_eq_of_permEqList xs ys hp.2]

end

/-! ## Wire encoding (spec §6; the serializer itself is serde-derived and not
part of this source fragment) -/

/-- Modelled from the spec: the self-describing, field-tagged wire encoding
(the serde JSON data model used by the derived `Serialize`/`Deserialize`). -/
inductive Json where
  | null
  | bool (b : Bool)
  | num (n : Int)
  | str (s : String)
  | arr (xs : List Json)
  | obj (fields : List (String × Json))

mutual

/-- Modelled from the spec: the serde-derived externally-tagged serialization
of `Filter` — tuple variants as `{tag: [fields]}`, newtype variants as
`{tag: value}`, and the unit variant `SelfUUID` as the bare string `"Self"`
(per its `#[serde(rename = "Self")]` attribute in `v1.rs`). -/
def Filter.toJson : Filter → Json
  | .Eq a v => .obj [("Eq", .arr [.str a, .str v])]
  | .Sub a v => .obj [("Sub", .arr [.str a, .str v])]
  | .Pres a => .obj [("Pres", .str a)]
  | .Or cs => .obj [("Or", .arr (Filter.toJsonList cs))]
  | .And cs => .obj [("And", .arr (Filter.toJsonList cs))]
  | .AndNot f => .obj [("AndNot", Filter.toJson f)]
  | .SelfUUID => .str "Self"

/-- Pointwise serialization of a child sequence. -/
def Filter.toJsonList : List Filter → List Json
  | [] => []
  | f :: fs => Filter.toJson f :: Filter.toJsonList fs

end

mutual

/-- Modelled from the spec: the serde-derived externally-tagged
deserialization of `Filter`; inputs of any other shape are rejected. -/
def Filter.fromJson : Json → Option Filter
  | .str s => if s = "Self" then some .SelfUUID else none
  | .obj [("Eq", .arr [.str a, .str v])] => some (.Eq a v)
  | .obj [("Sub", .arr [.str a, .str v])] => some (.Sub a v)
  | .obj [("Pres", .str a)] => some (.Pres a)
  | .obj [("Or", .arr xs)] => (Filter.fromJsonList xs).map .Or
  | .obj [("And", .arr xs)] => (Filter.fromJsonList xs).map .And
  | .obj [("AndNot", j)] => (Filter.fromJson j).map .AndNot
  | _ => none

/-- Pointwise deserialization of a child sequence; fails if any element
fails. -/
def Filter.fromJsonList : List Json → Option (List Filter)
  | [] => some []
  | j :: js => do
    let f ← Filter.fromJson j
    let fs ← Filter.fromJsonList js
    pure (f :: fs)

end

mutual

theorem Filter.fromJson_toJson (f : Filter) :
    Filter.fromJson (Filter.toJson f) = some f := by
  match f with
  | .Eq a v => rfl
  | .Sub a v => rfl
  | .Pres a => rfl
  | .SelfUUID => rfl
  | .AndNot f => simp [Filter.toJson, Filter.fromJson, Filter.fromJson_toJson f]
  | .Or cs => simp [Filter.toJson, Filter.fromJson, Filter.fromJsonList_toJsonList cs]
  | .And cs => simp [Filter.toJson, Filter.fromJson, Filter.fromJsonList_toJsonList cs]

theorem Filter.fromJsonList_toJsonList (fs : List Filter) :
    Filter.fromJsonList (Filter.toJsonList fs) = some fs := by
  match fs with
  | [] => rfl
  | f :: fs =>
    simp [Filter.toJsonList, Filter.fromJsonList, Filter.fromJson_toJson f,
      Filter.fromJsonList_toJsonList fs]

end

/-! ## Modify model (from `v1.rs` lines 159-175) -/

/-- `enum Modify` from `v1.rs`. -/
inductive Modify where
  | Present (attr value : String)
  | Removed (attr value : String)
  | Purged (attr : String)
deriving DecidableEq, Repr

/-- `struct ModifyList` from `v1.rs`: an ordered sequence of modifications. -/
structure ModifyList where
  mods : List Modify
deriving DecidableEq, Repr

/-- `ModifyList::new_list` from `v1.rs`. -/
def ModifyList.new_list (mods : List Modify) : ModifyList := { mods := mods }

/-- Modelled from the spec: serde-derived externally-tagged serialization of
`Modify`. -/
def Modify.toJson : Modify → Json
  | .Present a v => .obj [("Present", .arr [.str a, .str v])]
  | .Removed a v => .obj [("Removed", .arr [.str a, .str v])]
  | .Purged a => .obj [("Purged", .str a)]

/-- Modelled from the spec: serde-derived deserialization of `Modify`. -/
def Modify.fromJson : Json → Option Modify
  | .obj [("Present", .arr [.str a, .str v])] => some (.Present a v)
  | .obj [("Removed", .arr [.str a, .str v])] => some (.Removed a v)
  | .obj [("Purged", .str a)] => some (.Purged a)
  | _ => none

/-- Modelled from the spec: serde-derived serialization of `ModifyList`
(a struct with the single field `mods`). -/
def ModifyList.toJson (ml : ModifyList) : Json :=
  .obj [("mods", .arr (ml.mods.map Modify.toJson))]

/-- Pointwise deserialization of a modification sequence; fails if any
element fails. -/
def Modify.fromJsonList : List Json → Option (List Modify)
  | [] => some []
  | j :: js => do
    let m ← Modify.fromJson j
    let ms ← Modify.fromJsonList js
    pure (m :: ms)

/-- Modelled from the spec: serde-derived deserialization of `ModifyList`. -/
def ModifyList.fromJson : Json → Option ModifyList
  | .obj [("mods", .arr xs)] => (Modify.fromJsonList xs).map ModifyList.mk
  | _ => none

theorem Modify.roundtrip (m : Modify) :
    Modify.fromJson (Modify.toJson m) = some m := by
  cases m <;> rfl

theorem Modify.roundtrip_list (ms : List Modify) :
    Modify.fromJsonList (ms.map Modify.toJson) = some ms := by
  induction ms with
  | nil => rfl
  | cons m ms ih =>
    simp [Modify.fromJsonList, Modify.roundtrip m, ih]

/-! ## Requests and responses (from `v1.rs` lines 177-361) -/

/-- `struct OperationResponse` from `v1.rs`. -/
structure OperationResponse where
deriving DecidableEq, Repr

/-- `struct SearchRequest` from `v1.rs`. -/
structure SearchRequest where
  filter : Filter

/-- `struct Entry` from `v1.rs`: `attrs: BTreeMap<String, Vec<String>>`,
embedded as the key-value sequence the map enumerates, in enumeration
order; the `BTreeMap` contract on that sequence is `Entry.WF` below. -/
structure Entry where
  attrs : List (String × List String)
deriving DecidableEq, Repr

/-- `struct SearchResponse` from `v1.rs`. -/
structure SearchResponse where
  entries : List Entry

/-- `struct CreateRequest` from `v1.rs`. -/
structure CreateRequest where
  entries : List Entry

/-- `struct DeleteRequest` from `v1.rs`. -/
structure DeleteRequest where
  filter : Filter

/-- `struct ModifyRequest` from `v1.rs`. -/
structure ModifyRequest where
  filter : Filter
  modlist : ModifyList

/-- Keys of an entry, in enumeration order. -/
def Entry.keys (e : Entry) : List String := e.attrs.map Prod.fst

/-- Modelled from the spec: the `BTreeMap` representation invariant — the
enumerated keys are strictly increasing (so each attribute name occurs at
most once and enumeration is in sorted order of attribute name). -/
def Entry.WF (e : Entry) : Prop := e.keys.Pairwise (· < ·)

instance (e : Entry) : Decidable e.WF := by
  unfold Entry.WF; infer_instance

/-- Modelled from the spec: `BTreeMap` insertion of one value under an
attribute name — an existing key has the value appended to its value
sequence; a missing key is inserted at its sorted position. -/
def insertAV : List (String × List String) → String → String →
    List (String × List String)
  | [], k, v => [(k, [v])]
  | (k', vs) :: rest, k, v =>
    if k = k' then (k', vs ++ [v]) :: rest
    else if k < k' then (k, [v]) :: (k', vs) :: rest
    else (k', vs) :: insertAV rest k v

/-- Adding one value to an attribute of an entry. -/
def Entry.addValue (e : Entry) (k v : String) : Entry := ⟨insertAV e.attrs k v⟩

/-- Value sequence of an attribute, if the attribute is present. -/
def Entry.getAttr (e : Entry) (k : String) : Option (List String) :=
  (e.attrs.find? (fun p => p.fst == k)).map Prod.snd

theorem keys_insertAV_subset {l : List (String × List String)} {k v x : String}
    (h : x ∈ (insertAV l k v).map Prod.fst) : x = k ∨ x ∈ l.map Prod.fst := by
  induction l with
  | nil => simpa [insertAV] using h
  | cons p rest ih =>
    obtain ⟨k', vs⟩ := p
    by_cases h1 : k = k'
    · simp only [insertAV, if_pos h1, List.map_cons, List.mem_cons] at h ⊢
      tauto
    · by_cases h2 : k < k'
      · simp only [insertAV, if_neg h1, if_pos h2, List.map_cons, List.mem_cons] at h ⊢
        tauto
      · simp only [insertAV, if_neg h1, if_neg h2, List.map_cons, List.mem_cons] at h ⊢
        rcases h with h | h
        · tauto
        · rcases ih h with h | h <;> tauto

theorem insertAV_wf {l : List (String × List String)} {k v : String}
    (h : (l.map Prod.fst).Pairwise (· < ·)) :
    ((insertAV l k v).map Prod.fst).Pairwise (· < ·) := by
  induction l with
  | nil => simp [insertAV]
  | cons p rest ih =>
    obtain ⟨k', vs⟩ := p
    rw [List.map_cons, List.pairwise_cons] at h
    by_cases h1 : k = k'
    · have hins : insertAV ((k', vs) :: rest) k v = (k', vs ++ [v]) :: rest := by
        rw [insertAV, if_pos h1]
      rw [hins, List.map_cons, List.pairwise_cons]
      exact h
    · by_cases h2 : k < k'
      · have hins : insertAV ((k', vs) :: rest) k v = (k, [v]) :: (k', vs) :: rest := by
          rw [insertAV, if_neg h1, if_pos h2]
        rw [hins, List.map_cons, List.map_cons]
        refine List.Pairwise.cons ?_ (List.Pairwise.cons h.1 h.2)
        intro x hx
        rcases List.mem_cons.1 hx with rfl | hx
        · exact h2
        · exact lt_trans h2 (h.1 x hx)
      · have h3 : k' < k := by
          rcases lt_trichotomy k k' with hh | hh | hh
          · exact absurd hh h2
          · exact absurd hh h1
          · exact hh
        have hins : insertAV ((k', vs) :: rest) k v = (k', vs) :: insertAV rest k v := by
          rw [insertAV, if_neg h1, if_neg h2]
        rw [hins, List.map_cons]
        refine List.Pairwise.cons ?_ (ih h.2)
        intro x hx
        rcases keys_insertAV_subset hx with rfl | hx
        · exact h3
        · exact h.1 x hx

theorem keys_insertAV_of_mem {l : List (String × List String)} {k v : String}
    (hwf : (l.map Prod.fst).Pairwise (· < ·)) (hk : k ∈ l.map Prod.fst) :
    (insertAV l k v).map Prod.fst = l.map Prod.fst := by
  induction l with
  | nil => simp at hk
  | cons p rest ih =>
    obtain ⟨k', vs⟩ := p
    rw [List.map_cons, List.pairwise_cons] at hwf
    rw [List.map_cons, List.mem_cons] at hk
    by_cases h1 : k = k'
    · have hins : insertAV ((k', vs) :: rest) k v = (k', vs ++ [v]) :: rest := by
        rw [insertAV, if_pos h1]
      rw [hins, List.map_cons, List.map_cons]
    · have hk2 : k ∈ rest.map Prod.fst := by tauto
      have h3 : k' < k := hwf.1 k hk2
      have h2 : ¬k < k' := fun hc => absurd (lt_trans hc h3) (lt_irrefl k)
      have hins : insertAV ((k', vs) :: rest) k v = (k', vs) :: insertAV rest k v := by
        rw [insertAV, if_neg h1, if_neg h2]
      rw [hins, List.map_cons, List.map_cons, ih hwf.2 hk2]

theorem getAttr_insertAV_of_mem {l : List (String × List String)} {k v : String}
    {vs : List String} (hwf : (l.map Prod.fst).Pairwise (· < ·))
    (hget : (l.find? (fun p => p.fst == k)).map Prod.snd = some vs) :
    ((insertAV l k v).find? (fun p => p.fst == k)).map Prod.snd = some (vs ++ [v]) := by
  induction l with
  | nil => simp [List.find?] at hget
  | cons p rest ih =>
    obtain ⟨k', vs'⟩ := p
    rw [List.map_cons, List.pairwise_cons] at hwf
    by_cases h1 : k = k'
    · subst h1
      have hbt : ((k : String) == k) = true := beq_self_eq_true k
      simp only [List.find?, hbt, Option.map_some', Option.some_inj] at hget
      have hins : insertAV ((k, vs') :: rest) k v = (k, vs' ++ [v]) :: rest := by
        rw [insertAV, if_pos rfl]
      rw [hins]
      simp only [List.find?, hbt, Option.map_some', Option.some_inj]
      rw [hget]
    · have hbf : ((k' : String) == k) = false :=
        beq_eq_false_iff_ne.2 (fun h => h1 h.symm)
      simp only [List.find?, hbf] at hget
      obtain ⟨a, ha, hsnd⟩ := Option.map_eq_some'.1 hget
      have hamem : a ∈ rest := List.mem_of_find?_eq_some ha
      have hak : a.fst = k := by simpa using List.find?_some ha
      have hklt : k' < k := by
        have := hwf.1 a.fst (List.mem_map_of_mem Prod.fst hamem)
        rwa [hak] at this
      have h2 : ¬k < k' := fun hc => absurd (lt_trans hc hklt) (lt_irrefl k)
      have hins : insertAV ((k', vs') :: rest) k v = (k', vs') :: insertAV rest k v := by
        rw [insertAV, if_neg h1, if_neg h2]
      rw [hins]
      simp only [List.find?, hbf]
      exact ih hwf.2 hget

/-! ## Authentication (from `v1.rs` lines 258-309, machine from spec §4.2) -/

/-- `enum AuthCredential` from `v1.rs`. -/
inductive AuthCredential where
  | Anonymous
  | Password (s : String)
deriving DecidableEq, Repr

/-- `enum AuthStep` from `v1.rs`. -/
inductive AuthStep where
  | Init (name : String) (appid : Option String)
  | Creds (creds : List AuthCredential)
deriving DecidableEq, Repr

/-- `struct AuthRequest` from `v1.rs`. -/
structure AuthRequest where
  step : AuthStep
deriving DecidableEq, Repr

/-- `enum AuthAllowed` from `v1.rs`. -/
inductive AuthAllowed where
  | Anonymous
  | Password
deriving DecidableEq, Repr

/-- `enum AuthState` from `v1.rs`: the three outcomes a negotiation step can
report to the client. -/
inductive AuthState where
  | Success (token : UserAuthToken)
  | Denied (reason : String)
  | Continue (allowed : List AuthAllowed)
deriving DecidableEq, Repr

/-- Rust `uuid::Uuid`: a 128-bit identifier. -/
def Uuid := Fin (2 ^ 128)

instance : DecidableEq Uuid :=
  inferInstanceAs (DecidableEq (Fin (2 ^ 128)))

/-- `struct AuthResponse` from `v1.rs`: every authentication response pairs
the session identifier with an `AuthState`. -/
structure AuthResponse where
  sessionid : Uuid
  state : AuthState

/-- Modelled from the spec: the server-side state of one authentication
negotiation (§4.2); the session store keyed by session identifier and the
state machine itself are not part of this source fragment. -/
inductive SessionState where
  | Init
  | InContinue (allowed : List AuthAllowed)
  | Success (token : UserAuthToken)
  | Denied (reason : String)
deriving DecidableEq, Repr

/-- Modelled from the spec: the delegated account-lookup verdict used on
`AuthStep::Init` — either the mechanisms acceptable for the principal, or a
denial for an unknown/locked principal. -/
inductive InitVerdict where
  | Allowed (mechs : List AuthAllowed)
  | Unknown (reason : String)
deriving DecidableEq, Repr

/-- Modelled from the spec: the delegated credential-verifier verdict used on
`AuthStep::Creds` — policy satisfied (issue token), rejected, or more factors
required. -/
inductive CredVerdict where
  | Satisfied (token : UserAuthToken)
  | Rejected (reason : String)
  | MoreSteps (allowed : List AuthAllowed)
deriving DecidableEq, Repr

/-- Modelled from the spec: one step of the authentication negotiation state
machine (§4.2).  Credential verification is delegated: the two verdict
arguments stand for the external collaborators' decisions.  Returns the new
session state and the response — an `AuthState` on a legal step, an
`OperationError` on an illegal one.  Once `Success` or `Denied` is reached
every further step is rejected with `InvalidSessionState` and the state is
unchanged. -/
def stepAuth (s : SessionState) (step : AuthStep) (iv : InitVerdict)
    (cv : CredVerdict) : SessionState × Except OperationError AuthState :=
  match s with
  | .Success _ => (s, .error .InvalidSessionState)
  | .Denied _ => (s, .error .InvalidSessionState)
  | .Init =>
    match step with
    | .Init _ _ =>
      match iv with
      | .Allowed mechs => (.InContinue mechs, .ok (.Continue mechs))
      | .Unknown r => (.Denied r, .ok (.Denied r))
    | .Creds _ => (s, .error (.InvalidAuthState "credentials sent before init"))
  | .InContinue _ =>
    match step with
    | .Init _ _ => (s, .error (.InvalidAuthState "session already initialised"))
    | .Creds _ =>
      match cv with
      | .Satisfied t => (.Success t, .ok (.Success t))
      | .Rejected r => (.Denied r, .ok (.Denied r))
      | .MoreSteps mechs => (.InContinue mechs, .ok (.Continue mechs))

/-- Modelled from the spec: the server's response to `AuthStep::Init` — the
freshly allocated session identifier paired with the state produced by the
first step of the negotiation. -/
def authInitResponse (sid : Uuid) (name : String) (appid : Option String)
    (iv : InitVerdict) : AuthResponse :=
  match (stepAuth .Init (.Init name appid) iv (.MoreSteps [])).2 with
  | .ok st => { sessionid := sid, state := st }
  | .error _ => { sessionid := sid, state := .Denied "invalid session state" }

/-! ## UserAuthToken display (from `v1.rs` lines 121-129) -/

/-- Rust `{:?}` (derived `Debug`) rendering of a `String`. -/
def debugString (s : String) : String := "\"" ++ s ++ "\""

/-- Rust derived `Debug` rendering of a `Group`. -/
def Group.debugFmt (g : Group) : String :=
  "Group \x7b name: " ++ debugString g.name ++ ", uuid: " ++ debugString g.uuid ++ " \x7d"

/-- Rust derived `Debug` rendering of a `Claim`. -/
def Claim.debugFmt (c : Claim) : String :=
  "Claim \x7b name: " ++ debugString c.name ++ ", uuid: " ++ debugString c.uuid ++ " \x7d"

/-- Rust `{:?}` rendering of a `Vec`. -/
def debugList (xs : List String) : String :=
  "[" ++ String.intercalate ", " xs ++ "]"

/-- `impl fmt::Display for UserAuthToken` from `v1.rs`: one `writeln!` per
line for name, displayname, uuid, groups (`{:?}`) and claims (`{:?}`); the
`application` field is not written. -/
def UserAuthToken.display (t : UserAuthToken) : String :=
  "name: " ++ t.name ++ "\n" ++
  "display: " ++ t.displayname ++ "\n" ++
  "uuid: " ++ t.uuid ++ "\n" ++
  "groups: " ++ debugList (t.groups.map Group.debugFmt) ++ "\n" ++
  "claims: " ++ debugList (t.claims.map Claim.debugFmt) ++ "\n"

/-- Extract the per-check result sequence carried by
`OperationError::ConsistencyError`, if that is the variant at hand. -/
def OperationError.consistencyResults :
    OperationError → Option (List (Except KanidmProto.ConsistencyError Unit))
  | .ConsistencyError rs => some rs
  | _ => none

/-- The numeric value of a 128-bit session identifier. -/
def Uuid.toNat (u : Uuid) : Nat := Fin.val u

theorem Uuid.toNat_lt (u : Uuid) : u.toNat < 2 ^ 128 := Fin.isLt u

/-- A concrete token used to instantiate universally quantified statements. -/
def sampleToken : UserAuthToken :=
  { name := "alice", displayname := "Alice", uuid := "u-alice",
    application := none, groups := [], claims := [] }

/-- A concrete entry used to instantiate universally quantified statements. -/
def sampleEntry : Entry := ⟨[("name", ["alice"])]⟩

/-! ## Claims -/

/-- C1, counterexample: the child sequences of these two `Or` filters are
permutations of each other, yet the filters do not compare equal under the
derived `Filter` equality, which is order-sensitive structural equality. -/
theorem filter_eq_not_order_insensitive :
    [Filter.Eq "a" "1", Filter.Eq "b" "2"].Perm
      [Filter.Eq "b" "2", Filter.Eq "a" "1"] ∧
    Filter.Or [Filter.Eq "a" "1", Filter.Eq "b" "2"] ≠
      Filter.Or [Filter.Eq "b" "2", Filter.Eq "a" "1"] := by
  constructor
  · exact List.Perm.swap (Filter.Eq "b" "2") (Filter.Eq "a" "1") []
  · intro h
    rw [Filter.Or.injEq] at h
    injection h with h1 h2
    injection h1 with ha hv
    exact absurd ha (by decide)

/-- C1, amended: for every pair of Filter values that differ only in the
order of children inside an `Or` or `And` node (recursively), the two
Filters have identical canonical forms — order-insensitive comparison is
provided by `Filter.canon`, not by the raw derived equality. -/
theorem filter_permEq_canon_eq (f g : Filter) (h : PermEq f g) :
    Filter.canon f = Filter.canon g :=
  Filter.canon_eq_of_permEq f g h

/-- Witness for C1's amended theorem at a concrete permuted pair. -/
theorem filter_permEq_canon_eq_witness :
    Filter.canon (Filter.Or [Filter.Eq "a" "1", Filter.Eq "b" "2"]) =
      Filter.canon (Filter.Or [Filter.Eq "b" "2", Filter.Eq "a" "1"]) :=
  filter_permEq_canon_eq _ _
    ⟨[Filter.Eq "a" "1", Filter.Eq "b" "2"],
      ⟨⟨rfl, rfl⟩, ⟨rfl, rfl⟩, trivial⟩,
      List.Perm.swap (Filter.Eq "b" "2") (Filter.Eq "a" "1") []⟩

/-- C2: filter canonicalization is idempotent — canonicalizing an already
canonicalized filter changes nothing. -/
theorem canon_idempotent (f : Filter) :
    Filter.canon (Filter.canon f) = Filter.canon f :=
  Filter.canon_of_canonical (Filter.canon_canonical f)

/-- C3: serialization round-trips for `Filter` — deserializing the
serialization of any filter, of any variant and nesting, yields it back. -/
theorem filter_serialization_roundtrip (f : Filter) :
    Filter.fromJson (Filter.toJson f) = some f :=
  Filter.fromJson_toJson f

/-- C4: the authentication state machine admits only legal transitions — from
`Init` only `Continue` or `Denied` is reachable, from `Continue` only
`Continue`, `Success` or `Denied`, and a terminal `Success`/`Denied` session
answers every further step with `InvalidSessionState` and never changes. -/
theorem auth_state_machine_legal (s : SessionState) (st : AuthStep)
    (iv : InitVerdict) (cv : CredVerdict) :
    (s = SessionState.Init →
      (stepAuth s st iv cv).1 = SessionState.Init ∨
      (∃ ms, (stepAuth s st iv cv).1 = SessionState.InContinue ms) ∨
      (∃ r, (stepAuth s st iv cv).1 = SessionState.Denied r)) ∧
    (∀ ms0, s = SessionState.InContinue ms0 →
      (∃ ms, (stepAuth s st iv cv).1 = SessionState.InContinue ms) ∨
      (∃ t, (stepAuth s st iv cv).1 = SessionState.Success t) ∨
      (∃ r, (stepAuth s st iv cv).1 = SessionState.Denied r)) ∧
    ((∃ t, s = SessionState.Success t) ∨ (∃ r, s = SessionState.Denied r) →
      (stepAuth s st iv cv).1 = s ∧
      (stepAuth s st iv cv).2 = Except.error OperationError.InvalidSessionState) := by
  refine ⟨?_, ?_, ?_⟩
  · rintro rfl
    cases st <;> cases iv <;> simp [stepAuth]
  · rintro ms0 rfl
    cases st <;> cases cv <;> simp [stepAuth]
  · rintro (⟨t, rfl⟩ | ⟨r, rfl⟩) <;> exact ⟨rfl, rfl⟩

/-- Witness for C4 at a concrete terminal session. -/
theorem auth_state_machine_legal_witness :
    (stepAuth (SessionState.Success sampleToken) (AuthStep.Creds [])
        (InitVerdict.Unknown "no") (CredVerdict.Rejected "no")).1 =
      SessionState.Success sampleToken ∧
    (stepAuth (SessionState.Success sampleToken) (AuthStep.Creds [])
        (InitVerdict.Unknown "no") (CredVerdict.Rejected "no")).2 =
      Except.error OperationError.InvalidSessionState :=
  (auth_state_machine_legal (SessionState.Success sampleToken) (AuthStep.Creds [])
    (InitVerdict.Unknown "no") (CredVerdict.Rejected "no")).2.2
    (Or.inl ⟨sampleToken, rfl⟩)

/-- C5: the `SelfUUID` variant serializes to the literal tag `"Self"` (not
`"SelfUUID"`), and the tag `"Self"` deserializes to `SelfUUID`. -/
theorem selfUUID_serializes_as_Self :
    Filter.toJson Filter.SelfUUID = Json.str "Self" ∧
    Filter.fromJson (Json.str "Self") = some Filter.SelfUUID ∧
    Filter.toJson Filter.SelfUUID ≠ Json.str "SelfUUID" := by
  refine ⟨rfl, rfl, fun h => ?_⟩
  have h2 : "Self" = "SelfUUID" := by injection h
  exact absurd h2 (by decide)

/-- C6: `ModifyList` preserves mutation order verbatim — `new_list` keeps the
input sequence unchanged, and serialization round-trips the ordered
sequence. -/
theorem modifyList_preserves_order (ms : List Modify) :
    (ModifyList.new_list ms).mods = ms ∧
    ModifyList.fromJson (ModifyList.toJson (ModifyList.new_list ms)) =
      some (ModifyList.new_list ms) := by
  refine ⟨rfl, ?_⟩
  simp [ModifyList.toJson, ModifyList.fromJson, ModifyList.new_list,
    Modify.roundtrip_list ms]

/-- C7: `OperationError::ConsistencyError` carries the full sequence of
per-check results, so one consistency pass can report several simultaneous
faults (and interleaved successes) in a single error value. -/
theorem consistencyError_reports_all (rs : List (Except ConsistencyError Unit)) :
    (OperationError.ConsistencyError rs).consistencyResults = some rs ∧
    (OperationError.ConsistencyError
        [Except.error ConsistencyError.Unknown, Except.ok (),
          Except.error (ConsistencyError.UuidNotUnique "u")]).consistencyResults =
      some [Except.error ConsistencyError.Unknown, Except.ok (),
        Except.error (ConsistencyError.UuidNotUnique "u")] :=
  ⟨rfl, rfl⟩

/-- C8: every authentication response pairs a 128-bit session identifier
with an `AuthState` that is exactly `Success`, `Denied` or `Continue`; the
response to Auth-Init carries the allocated session id together with either
`Continue` or `Denied`. -/
theorem authResponse_pairs_session_with_state (r : AuthResponse) (sid : Uuid)
    (name : String) (appid : Option String) (iv : InitVerdict) :
    r.sessionid.toNat < 2 ^ 128 ∧
    ((∃ t, r.state = AuthState.Success t) ∨ (∃ s, r.state = AuthState.Denied s) ∨
      (∃ ms, r.state = AuthState.Continue ms)) ∧
    (authInitResponse sid name appid iv).sessionid = sid ∧
    ((∃ ms, (authInitResponse sid name appid iv).state = AuthState.Continue ms) ∨
      (∃ s, (authInitResponse sid name appid iv).state = AuthState.Denied s)) := by
  refine ⟨Uuid.toNat_lt r.sessionid, ?_, ?_, ?_⟩
  · cases h : r.state with
    | Success t => exact Or.inl ⟨t, rfl⟩
    | Denied s => exact Or.inr (Or.inl ⟨s, rfl⟩)
    | Continue ms => exact Or.inr (Or.inr ⟨ms, rfl⟩)
  · cases iv <;> rfl
  · cases iv with
    | Allowed ms => exact Or.inl ⟨ms, rfl⟩
    | Unknown s => exact Or.inr ⟨s, rfl⟩

/-- C9: the `Display` rendering of a `UserAuthToken` is independent of its
`application` field — tokens differing only there render identically. -/
theorem display_ignores_application (t : UserAuthToken) (a : Option Application) :
    UserAuthToken.display { t with application := a } = UserAuthToken.display t :=
  rfl

/-- C10: in a well-formed entry each attribute name occurs at most once and
enumeration is in sorted key order; adding a value under an existing name
extends that attribute's value sequence and creates no second key, and
preserves well-formedness. -/
theorem entry_attrs_unique_sorted (e : Entry) (k v : String) (vs : List String)
    (hwf : e.WF) :
    e.keys.Pairwise (· < ·) ∧ e.keys.Nodup ∧
    (e.addValue k v).WF ∧
    (k ∈ e.keys → (e.addValue k v).keys = e.keys) ∧
    (e.getAttr k = some vs → (e.addValue k v).getAttr k = some (vs ++ [v])) := by
  refine ⟨hwf, ?_, ?_, ?_, ?_⟩
  · exact List.Pairwise.imp ne_of_lt hwf
  · exact insertAV_wf hwf
  · intro hk
    exact keys_insertAV_of_mem hwf hk
  · intro hget
    exact getAttr_insertAV_of_mem hwf hget

/-- Witness for C10 at a concrete entry. -/
theorem entry_attrs_unique_sorted_witness :
    (sampleEntry.addValue "name" "bob").WF ∧
    (sampleEntry.addValue "name" "bob").keys = sampleEntry.keys ∧
    (sampleEntry.addValue "name" "bob").getAttr "name" = some ["alice", "bob"] :=
  ⟨(entry_attrs_unique_sorted sampleEntry "name" "bob" ["alice"] (by decide)).2.2.1,
    (entry_attrs_unique_sorted sampleEntry "name" "bob" ["alice"]
      (by decide)).2.2.2.1 (by decide),
    (entry_attrs_unique_sorted sampleEntry "name" "bob" ["alice"]
      (by decide)).2.2.2.2 (by decide)⟩

end KanidmProto
